import Mathlib

/-!
# The Conductor's Manifold — verification of the analysis core

Shallow embedding of the analysis pipeline of The-Conductors-Manifold.
The repository ships the frontend (React) and mobile (React Native) clients
together with documentation of the Python backend
(`backend/core/manifold_engine.py`, `backend/core/manifold_interpreter.py`,
`backend/services/alert_system.py`); the backend sources themselves are not
part of the repository snapshot, so the components below that belong to the
backend are modelled from the specification, while the mobile API cache is
embedded directly from `src/mobile/src/services/api.ts`.

Numbers are embedded as rationals (`ℚ`); entropy values, which involve a
logarithm, live in `ℝ`.
-/

namespace Conductor

/-- Modelled from the spec: the categorical phase enum
`{Impulse, SingularityAlert, Correction, Convergence, Equilibrium,
CompressionBuilding, Transitional}` (spec §3, §4.7). -/
inductive Phase where
  | Impulse
  | SingularityAlert
  | Correction
  | Convergence
  | Equilibrium
  | CompressionBuilding
  | Transitional
deriving DecidableEq, Repr

/-- Modelled from the spec: the `Horizon` enum (spec §3).  The spec's fifth
horizon is the monthly (1M) scale; it is named `grand` here because its
spec name collides with a reserved word of this development. -/
inductive Horizon where
  | micro
  | short
  | medium
  | long
  | grand
deriving DecidableEq, Repr

/-- Modelled from the spec: the scalar summary of a `MetricsSnapshot` that the
Interpreter's rules read — `(curvature sign/magnitude, tension level, entropy
level, recent-singularity count, nearest-attractor distance)` (spec §4.7).
The backend `ManifoldInterpreter` is absent from the snapshot. -/
structure InterpSnapshot where
  curvature : ℚ
  tension : ℚ
  entropy : ℚ
  recentSingularities : ℕ
  nearestAttractorDistPct : Option ℚ
deriving DecidableEq, Repr

/-- Modelled from the spec: the small, externally supplied threshold
configuration of the Interpreter (spec §4.7, §9: thresholds are explicit
configuration, not hard-coded). -/
structure Thresholds where
  curvatureHigh : ℚ
  tensionHigh : ℚ
  tensionHard : ℚ
  entropyLow : ℚ
  entropyHigh : ℚ
  attractorNearPct : ℚ
  singularityHardLimit : ℕ
deriving DecidableEq, Repr

/-- An Interpreter rule: a predicate over thresholds and snapshot paired with
the phase it produces (spec §4.7, §9: an explicit prioritized list of
`(predicate, result)` pairs). -/
abbrev Rule := (Thresholds → InterpSnapshot → Bool) × Phase

/-- Modelled from the spec: the ordered rule table of the Interpreter — most
severe/specific first (`SingularityAlert`), most generic last (the
`Transitional` fallback whose predicate always holds) (spec §4.7). -/
def interpreterRules : List Rule :=
  [ (fun _ s => 0 < s.recentSingularities, Phase.SingularityAlert)
  , (fun t s => t.tensionHigh < s.tension ∧ s.entropy < t.entropyLow, Phase.CompressionBuilding)
  , (fun t s => t.curvatureHigh < |s.curvature| ∧ t.tensionHigh < |s.tension|, Phase.Impulse)
  , (fun t s => t.curvatureHigh < |s.curvature|, Phase.Correction)
  , (fun t s => (s.nearestAttractorDistPct.map (fun d => decide (d ≤ t.attractorNearPct))).getD false,
      Phase.Convergence)
  , (fun t s => |s.tension| ≤ t.tensionHigh ∧ s.entropy ≤ t.entropyLow, Phase.Equilibrium)
  , (fun _ _ => true, Phase.Transitional) ]

/-- First-match evaluation of an ordered rule list; the `Transitional`
fallback is also the value of the (unreachable) empty tail (spec §4.7). -/
def firstMatch (t : Thresholds) (s : InterpSnapshot) : List Rule → Phase
  | [] => Phase.Transitional
  | r :: rs => if r.1 t s then r.2 else firstMatch t s rs

/-- Modelled from the spec: the phase computed by the Interpreter — the result
of the first matching rule of the ordered table (spec §4.7). -/
def interpretPhase (t : Thresholds) (s : InterpSnapshot) : Phase :=
  firstMatch t s interpreterRules

/-- Clamp a rational into the interval `[0, 100]`. -/
def qclamp (x : ℚ) : ℚ := max 0 (min 100 x)

/-- Modelled from the spec: the confidence score in `[0,100]`, proportional to
how far the thresholds were exceeded (spec §4.7). -/
def confidenceOf (t : Thresholds) (s : InterpSnapshot) : ℚ :=
  qclamp (100 * (|s.curvature| + |s.tension|) / (t.curvatureHigh + t.tensionHigh + 1))

/-- Modelled from the spec: the optional warning string, present when tension
or the recent-singularity count exceed hard limits (spec §4.7). -/
def warningOf (t : Thresholds) (s : InterpSnapshot) : Option String :=
  if t.tensionHard < |s.tension| ∨ t.singularityHardLimit < s.recentSingularities then
    some "hard limit exceeded: tension or recent singularities"
  else
    none

/-- Modelled from the spec: the Interpreter's output record
`(phase, confidence, warning)` (spec §4.7, §8). -/
structure Interpretation where
  phase : Phase
  confidence : ℚ
  warning : Option String
deriving DecidableEq, Repr

/-- Modelled from the spec: `interpret(snapshot) -> Interpretation` — a pure
function of its snapshot and threshold configuration alone (spec §4.7, §6). -/
def interpret (t : Thresholds) (s : InterpSnapshot) : Interpretation :=
  { phase := interpretPhase t s
  , confidence := confidenceOf t s
  , warning := warningOf t s }

/-- Modelled from the spec: the error taxonomy of the pipeline (spec §7). -/
inductive PipelineError where
  | InsufficientData
  | MalformedInput
  | UpstreamUnavailable
  | ThresholdConfigError
deriving DecidableEq, Repr

/-- A raw price value as received from a data feed: either a proper number or
an IEEE NaN payload (ℚ has no NaN, so NaN is a separate constructor). -/
inductive RawPrice where
  | nan
  | val (q : ℚ)
deriving DecidableEq, Repr

/-- Modelled from the spec: a raw, not yet validated `PricePoint`
`{timestamp, price, volume?}` (spec §3). -/
structure RawPricePoint where
  timestamp : ℤ
  price : RawPrice
  volume : Option ℚ
deriving DecidableEq, Repr

/-- Modelled from the spec: a validated `PricePoint` — NaN-free,
non-negative price (spec §3). -/
structure PricePoint where
  timestamp : ℤ
  price : ℚ
  volume : Option ℚ
deriving DecidableEq, Repr

/-- A raw price is valid when it is a number and not negative (spec §3, §7:
"no NaN/negative prices"). -/
def validPrice : RawPrice → Bool
  | .nan => false
  | .val q => 0 ≤ q

/-- Strict time-ordering of a raw sequence (spec §3: "strictly
time-ordered"). -/
def chronological : List RawPricePoint → Bool
  | [] => true
  | [_] => true
  | a :: b :: rest => a.timestamp < b.timestamp && chronological (b :: rest)

/-- Carry a raw point over to a validated point.  Only ever applied after
validation; the `nan` branch is unreachable there. -/
def toPricePoint (p : RawPricePoint) : PricePoint :=
  { timestamp := p.timestamp
  , price := match p.price with | .nan => 0 | .val q => q
  , volume := p.volume }

/-- Modelled from the spec: the Normalizer — validates and orders raw
`PricePoint` input, rejecting non-monotonic timestamps and NaN/negative
prices with an explicit `MalformedInput` error, never silently coercing
(spec §2, §3, §7). -/
def normalize (input : List RawPricePoint) : Except PipelineError (List PricePoint) :=
  if chronological input && input.all (fun p => validPrice p.price) then
    .ok (input.map toPricePoint)
  else
    .error .MalformedInput

/-- Consecutive price differences ("returns") of a series (spec §4.2). -/
def returnsOf (ps : List ℚ) : List ℚ :=
  List.zipWith (fun a b => b - a) ps ps.tail

/-- Minimum of a rational list (0 on the empty list). -/
def listMin : List ℚ → ℚ
  | [] => 0
  | x :: xs => xs.foldl min x

/-- Maximum of a rational list (0 on the empty list). -/
def listMax : List ℚ → ℚ
  | [] => 0
  | x :: xs => xs.foldl max x

/-- Bin index of a return inside `k` bins spanning `[lo, hi]`; a degenerate
span (`hi ≤ lo`) puts everything into bin 0 (spec §4.2: bins span the
observed min/max of the window). -/
def binIndex (lo hi : ℚ) (k : ℕ) (r : ℚ) : ℕ :=
  if hi ≤ lo then 0
  else min (k - 1) (Int.toNat ⌊(r - lo) / (hi - lo) * k⌋)

/-- Occupancy counts of the `k` bins over a list of returns (spec §4.2). -/
def binCounts (k : ℕ) (rs : List ℚ) : List ℕ :=
  (List.range k).map
    (fun b => rs.countP (fun r => binIndex (listMin rs) (listMax rs) k r == b))

/-- The real number `e` is the Shannon entropy of the occupancy counts
`counts` over `n` samples: `e = -∑ (c/n)·log(c/n)` with empty bins
contributing nothing (spec §4.2: "empty bins are excluded from the entropy
sum").  Stated as a relation because `Real.log` carries no executable
code. -/
def shannonOfCountsIs (counts : List ℕ) (n : ℕ) (e : ℝ) : Prop :=
  e = -((counts.map (fun c : ℕ =>
          if c = 0 then (0 : ℝ)
          else ((c : ℝ) / (n : ℝ)) * Real.log ((c : ℝ) / (n : ℝ)))).sum)

/-- Modelled from the spec: `e` is the Shannon entropy of the binned
distribution of the returns `rs` under `k` bins (spec §4.2); the backend
`calculate_entropy` is absent from the snapshot. -/
def entropyIs (k : ℕ) (rs : List ℚ) (e : ℝ) : Prop :=
  if rs.length = 0 then e = 0 else shannonOfCountsIs (binCounts k rs) rs.length e

/-- Modelled from the spec: `e` is the EntropyEstimator's scalar `entropy`
of a price window — the Shannon entropy of the window's binned returns
(spec §4.2). -/
def scalarEntropyIs (k : ℕ) (ps : List ℚ) (e : ℝ) : Prop :=
  entropyIs k (returnsOf ps) e

/-- The trailing sub-window of `ps` of size `w` ending at index `i`,
expanding while fewer than `w` samples are available (spec §4.2). -/
def trailingWindow (w : ℕ) (ps : List ℚ) (i : ℕ) : List ℚ :=
  (ps.take (i + 1)).drop (i + 1 - w)

/-- Modelled from the spec: the per-index binned return distributions of the
trailing windows, from which `local_entropy[i]` is read (spec §4.2).  The
snapshot stores these counts so the embedding stays executable; the real
entropy value at each index is specified by `entropyIs`. -/
def localEntropyBins (k w : ℕ) (ps : List ℚ) : List (List ℕ) :=
  (List.range ps.length).map
    (fun i => binCounts k (returnsOf (trailingWindow w ps i)))

/-- Discrete second difference of price at index `i`, with the index clamped
into the interior `[1, n-2]` — the documented edge policy repeats the
nearest interior value at the two boundary indices (spec §4.1). -/
def curvAt (ps : List ℚ) (i : ℕ) : ℚ :=
  let j := min (max i 1) (ps.length - 2)
  ps.getD (j + 1) 0 - 2 * ps.getD j 0 + ps.getD (j - 1) 0

/-- Modelled from the spec: the CurvatureEstimator — `curvature[]` of length
`n`, the discrete second difference with boundary repetition (spec §4.1);
the backend `calculate_curvature` is absent from the snapshot. -/
def curvatureOf (ps : List ℚ) : List ℚ :=
  (List.range ps.length).map (curvAt ps)

/-- One step of the TensionAccumulator: decay the previous tension and add
the latest return when its sign is consistent with the previous return
(spec §4.3). -/
def tensionNext (decay prev rprev r : ℚ) : ℚ :=
  decay * prev + (if (0 ≤ rprev ∧ 0 ≤ r) ∨ (rprev ≤ 0 ∧ r ≤ 0) then r else 0)

/-- Tail recursion of the TensionAccumulator over the list of returns,
carrying the running tension and the previous return. -/
def tensionAux (decay : ℚ) : ℚ → ℚ → List ℚ → List ℚ
  | _, _, [] => []
  | prev, rprev, r :: rs =>
      tensionNext decay prev rprev r :: tensionAux decay (tensionNext decay prev rprev r) r rs

/-- Modelled from the spec: the TensionAccumulator — a signed, exponentially
decayed accumulation of directional persistence, `tension[]` aligned to the
input (spec §4.3). -/
def tensionOf (decay : ℚ) (ps : List ℚ) : List ℚ :=
  match ps with
  | [] => []
  | _ :: _ => 0 :: tensionAux decay 0 0 (returnsOf ps)

/-- Modelled from the spec: the RicciFlowModel's per-index flow reading — the
non-negative tension decrease from the previous index (spec §4.5: a sharp
tension decrease records a flow event); the backend `calculate_ricci_flow`
is absent from the snapshot. -/
def ricciFlowOf (ts : List ℚ) : List ℚ :=
  (List.range ts.length).map
    (fun i => if i = 0 then 0 else max 0 (ts.getD (i - 1) 0 - ts.getD i 0))

/-- Modelled from the spec: an attractor — a clustered price level with a
normalized strength in `[0,1]` (spec §3, §4.5). -/
structure Attractor where
  price : ℚ
  strength : ℚ
deriving DecidableEq, Repr

/-- Each observed price paired with its positive weight: recency (later
indices weigh more) times volume when available (spec §4.5: "weighted by
recency and (if available) volume"); absent volume counts as 1 and a
negative volume reading is clamped to 0 so weights stay non-negative. -/
def weightedPoints (pts : List PricePoint) : List (ℚ × ℚ) :=
  pts.enum.map (fun ip => (ip.2.price, ((ip.1 + 1 : ℕ) : ℚ) * max (ip.2.volume.getD 1) 0))

/-- Price-level bucket of a price under a cluster width (a simple grid
clustering of observed prices into centers). -/
def bucketKey (width : ℚ) (p : ℚ) : ℤ := ⌊p / width⌋

/-- The distinct price buckets observed in the input. -/
def clusterKeys (width : ℚ) (pts : List PricePoint) : List ℤ :=
  ((weightedPoints pts).map (fun pw => bucketKey width pw.1)).dedup

/-- Total weighted mass of all observations. -/
def totalMass (pts : List PricePoint) : ℚ :=
  ((weightedPoints pts).map Prod.snd).sum

/-- Weighted mass of the observations falling into one bucket. -/
def clusterMass (width : ℚ) (pts : List PricePoint) (key : ℤ) : ℚ :=
  (((weightedPoints pts).filter (fun pw => bucketKey width pw.1 == key)).map Prod.snd).sum

/-- The attractor of one bucket: its weighted mean price, with strength the
cluster mass normalized by the total mass (spec §4.5: "cluster strength is
the normalized cluster mass in [0,1]"). -/
def clusterFor (width : ℚ) (pts : List PricePoint) (key : ℤ) : Attractor :=
  let inb := (weightedPoints pts).filter (fun pw => bucketKey width pw.1 == key)
  let mass := (inb.map Prod.snd).sum
  { price := (inb.map (fun pw => pw.1 * pw.2)).sum / mass
  , strength := mass / totalMass pts }

/-- Insert a keyed mass into a list sorted by descending mass. -/
def insertDesc (x : ℤ × ℚ) : List (ℤ × ℚ) → List (ℤ × ℚ)
  | [] => [x]
  | y :: ys => if y.2 ≤ x.2 then x :: y :: ys else y :: insertDesc x ys

/-- Insertion sort by descending mass. -/
def sortDesc : List (ℤ × ℚ) → List (ℤ × ℚ)
  | [] => []
  | x :: xs => insertDesc x (sortDesc xs)

/-- Modelled from the spec: the AttractorLocator — clusters observed prices
into at most `K` centers, weighted by recency and volume, keeping the `K`
heaviest clusters (spec §4.5); the backend `find_attractors` is absent from
the snapshot. -/
def findAttractors (K : ℕ) (width : ℚ) (pts : List PricePoint) : List Attractor :=
  let keyed := (clusterKeys width pts).map (fun key => (key, clusterMass width pts key))
  ((sortDesc keyed).take K).map (fun km => clusterFor width pts km.1)

/-- Insert a rational into an ascending sorted list. -/
def insertAsc (x : ℚ) : List ℚ → List ℚ
  | [] => [x]
  | y :: ys => if x ≤ y then x :: y :: ys else y :: insertAsc x ys

/-- Insertion sort, ascending. -/
def sortAsc : List ℚ → List ℚ
  | [] => []
  | x :: xs => insertAsc x (sortAsc xs)

/-- Median of a list of rationals (0 on the empty list). -/
def medianOf (l : List ℚ) : ℚ :=
  let s := sortAsc l
  if l.length = 0 then 0
  else if l.length % 2 = 1 then s.getD (l.length / 2) 0
  else (s.getD (l.length / 2 - 1) 0 + s.getD (l.length / 2) 0) / 2

/-- Median absolute deviation of a list of rationals. -/
def madOf (l : List ℚ) : ℚ :=
  medianOf (l.map (fun x => |x - medianOf l|))

/-- The `p`-quantile of a list (by index into the ascending sort). -/
def percentileOf (p : ℚ) (l : List ℚ) : ℚ :=
  (sortAsc l).getD (Int.toNat ⌊p * ((l.length - 1 : ℕ) : ℚ)⌋) 0

/-- Cluster deduplication: within a minimum index gap only the index with
the larger score survives (spec §4.4). -/
def dedupGap (gap : ℕ) (score : ℕ → ℚ) : List ℕ → List ℕ
  | [] => []
  | i :: rest =>
      match dedupGap gap score rest with
      | [] => [i]
      | j :: js => if j - i < gap then (if score i < score j then j :: js else i :: js)
                   else i :: j :: js

/-- Modelled from the spec: the SingularityDetector — flags index `i` only
when `|curvature[i]|` exceeds `median + k·MAD` of `|curvature|` and
`tension[i]` exceeds its own percentile threshold, then deduplicates
within a minimum index gap (spec §4.4); the backend `detect_singularities`
is absent from the snapshot. -/
def detectSingularities (madK tensionPct : ℚ) (gap : ℕ)
    (curvature tension : List ℚ) : List ℕ :=
  let absCurv := curvature.map (fun c => |c|)
  let curvThr := medianOf absCurv + madK * madOf absCurv
  let tenThr := percentileOf tensionPct tension
  let hits := (List.range curvature.length).filter
    (fun i => curvThr < absCurv.getD i 0 ∧ tenThr < tension.getD i 0)
  dedupGap gap (fun i => absCurv.getD i 0) hits

/-- Modelled from the spec: tuning parameters of the single-scale pipeline
(spec §4.2–§4.5, §9: thresholds, bin counts and cluster limits are explicit
configuration). -/
structure PipelineConfig where
  bins : ℕ
  window : ℕ
  decay : ℚ
  madK : ℚ
  tensionPct : ℚ
  gap : ℕ
  maxAttractors : ℕ
  clusterWidth : ℚ
  recentWindow : ℕ
deriving DecidableEq, Repr

/-- Modelled from the spec: the per-horizon `MetricsSnapshot` — per-index
arrays aligned 1:1 with the input sequence (spec §3).  The scalar `entropy`
and `local_entropy[i]` are represented by their binned return
distributions (`entropy_bins`, `local_entropy_bins`); the corresponding
real values are specified by `entropyIs` / `shannonOfCountsIs`. -/
structure MetricsSnapshot where
  prices : List ℚ
  curvature : List ℚ
  entropy_bins : List ℕ
  local_entropy_bins : List (List ℕ)
  tension : List ℚ
  singularities : List ℕ
  attractors : List Attractor
  ricci_flow : List ℚ
deriving DecidableEq, Repr

/-- Modelled from the spec: `analyze` — recomputes a fresh `MetricsSnapshot`
from a price series, failing with `InsufficientData` below the curvature
minimum `n ≥ 3` (spec §4.1, §6); the backend `ManifoldEngine.analyze` is
absent from the snapshot. -/
def analyze (cfg : PipelineConfig) (pts : List PricePoint) : Except PipelineError MetricsSnapshot :=
  let ps := pts.map (fun p => p.price)
  if ps.length < 3 then .error .InsufficientData
  else .ok
    { prices := ps
    , curvature := curvatureOf ps
    , entropy_bins := binCounts cfg.bins (returnsOf ps)
    , local_entropy_bins := localEntropyBins cfg.bins cfg.window ps
    , tension := tensionOf cfg.decay ps
    , singularities :=
        detectSingularities cfg.madK cfg.tensionPct cfg.gap (curvatureOf ps) (tensionOf cfg.decay ps)
    , attractors := findAttractors cfg.maxAttractors cfg.clusterWidth pts
    , ricci_flow := ricciFlowOf (tensionOf cfg.decay ps) }

/-- Executable rational disorder reading of a binned distribution (the
Gini–Simpson diversity `1 - ∑ pᵢ²`), used where the pipeline compares an
entropy level against thresholds; the real Shannon value itself is
specified by `entropyIs` and carries no executable code. -/
def entropyReading (counts : List ℕ) : ℚ :=
  1 - ((counts.map (fun c => ((c : ℚ) / (counts.sum : ℚ)) ^ 2)).sum)

/-- Minimum of a nonempty rational list, `none` on the empty list. -/
def listMinOpt : List ℚ → Option ℚ
  | [] => none
  | x :: xs => some (xs.foldl min x)

/-- Percentage distance from the current price to the nearest attractor
(spec §3: `AttractorTarget.distance_pct`). -/
def nearestDistPct (price : ℚ) (attrs : List Attractor) : Option ℚ :=
  listMinOpt (attrs.map (fun a => |a.price - price| / price * 100))

/-- Modelled from the spec: the scalar summary of a snapshot handed to the
Interpreter — latest curvature and tension, the entropy level, the count of
recent singularities and the nearest-attractor distance (spec §4.7). -/
def snapshotSummary (cfg : PipelineConfig) (snap : MetricsSnapshot) : InterpSnapshot :=
  { curvature := snap.curvature.getLastD 0
  , tension := snap.tension.getLastD 0
  , entropy := entropyReading snap.entropy_bins
  , recentSingularities :=
      (snap.singularities.filter (fun i => snap.prices.length - cfg.recentWindow ≤ i)).length
  , nearestAttractorDistPct := nearestDistPct (snap.prices.getLastD 0) snap.attractors }

/-- Modelled from the spec: the per-horizon binding of resample granularity,
minimum length and tie-break weight — longer horizons weigh more
(spec §3, §4.6). -/
structure HorizonConfig where
  granularity : ℕ
  minLength : ℕ
  weight : ℕ
deriving DecidableEq, Repr

/-- Modelled from the spec: the five horizons bound to their granularities
(1H, 4H, 1D, 1W, 1M in base-hour units), minimum lengths, and increasing
tie-break weights (spec §3, §4.6). -/
def horizonConfig : Horizon → HorizonConfig
  | .micro => ⟨1, 30, 1⟩
  | .short => ⟨4, 30, 2⟩
  | .medium => ⟨24, 30, 3⟩
  | .long => ⟨168, 30, 4⟩
  | .grand => ⟨720, 30, 5⟩

/-- Resample a base series to a horizon's granularity by keeping every
`g`-th point (spec §4.6: "resamples/aggregates the base series to that
horizon's granularity"; point-sampling is the aggregation embedded here). -/
def resamplePts (g : ℕ) (pts : List PricePoint) : List PricePoint :=
  (pts.enum.filter (fun ip => ip.1 % g == 0)).map Prod.snd

/-- One horizon's fully analyzed and interpreted result (spec §4.6). -/
structure HorizonResult where
  horizon : Horizon
  snapshot : MetricsSnapshot
  interpretation : Interpretation
deriving DecidableEq, Repr

/-- The fractal-consistency reconciliation: the dominant phase and its
percentage agreement across horizons (spec §4.6, `FractalAnalysis` in
src/mobile/src/types with fields `consistency` and `dominant_phase`). -/
structure FractalAnalysis where
  dominant_phase : Phase
  consistency : ℚ
deriving DecidableEq, Repr

/-- Modelled from the spec: `MultiscaleResult` — per-horizon results, the
per-horizon failures, and the fractal-consistency analysis (spec §4.6, §6,
§7). -/
structure MultiscaleResult where
  scales : List HorizonResult
  failures : List (Horizon × PipelineError)
  fractal : FractalAnalysis
deriving DecidableEq, Repr

/-- Run the single-scale pipeline on the base series resampled to one
horizon; a series below the horizon's minimum length is an
`InsufficientData` failure for that horizon alone (spec §4.6, §7). -/
def analyzeHorizon (cfg : PipelineConfig) (t : Thresholds) (base : List PricePoint)
    (h : Horizon) : Except PipelineError HorizonResult :=
  let hc := horizonConfig h
  let series := resamplePts hc.granularity base
  if series.length < hc.minLength then .error .InsufficientData
  else (analyze cfg series).map
    (fun snap => ⟨h, snap, interpret t (snapshotSummary cfg snap)⟩)

/-- Number of scored horizons voting for a phase (spec §4.6: majority
vote). -/
def phaseVotes (rs : List HorizonResult) (p : Phase) : ℕ :=
  rs.countP (fun r => r.interpretation.phase == p)

/-- Total tie-break weight of the horizons voting for a phase (spec §4.6:
longer horizons weigh more heavily on ties). -/
def phaseWeight (rs : List HorizonResult) (p : Phase) : ℕ :=
  ((rs.filter (fun r => r.interpretation.phase == p)).map
    (fun r => (horizonConfig r.horizon).weight)).sum

/-- Total tie-break weight of all scored horizons. -/
def totalWeight (rs : List HorizonResult) : ℕ :=
  (rs.map (fun r => (horizonConfig r.horizon).weight)).sum

/-- Lexicographic score of a phase: majority vote first, with the horizon
weight deciding ties (encoded numerically: the weight summand is strictly
below one vote's contribution). -/
def phaseScore (rs : List HorizonResult) (p : Phase) : ℕ :=
  phaseVotes rs p * (totalWeight rs + 1) + phaseWeight rs p

/-- The phases in a fixed canonical order. -/
def allPhases : List Phase :=
  [ Phase.Impulse, Phase.SingularityAlert, Phase.Correction, Phase.Convergence
  , Phase.Equilibrium, Phase.CompressionBuilding, Phase.Transitional ]

/-- Modelled from the spec: the dominant phase across the scored horizons —
majority vote, longer horizons weighing more heavily on ties (spec §4.6). -/
def dominantPhase (rs : List HorizonResult) : Phase :=
  allPhases.foldl
    (fun best q => if phaseScore rs best < phaseScore rs q then q else best)
    Phase.Impulse

/-- Modelled from the spec: the fractal-consistency score — the percentage of
scored horizons agreeing with the dominant phase (spec §4.6); 0 when no
horizon could be scored. -/
def consistencyScore (rs : List HorizonResult) : ℚ :=
  if rs.length = 0 then 0
  else 100 * ((phaseVotes rs (dominantPhase rs) : ℚ) / (rs.length : ℚ))

/-- The reconciled fractal analysis of the scored horizons (spec §4.6). -/
def fractalOf (rs : List HorizonResult) : FractalAnalysis :=
  ⟨dominantPhase rs, consistencyScore rs⟩

/-- Modelled from the spec: `analyzeMultiscale` — runs the full pipeline per
horizon, keeps each horizon's failure per-horizon, and reconciles the
successful horizons into the fractal-consistency analysis; the request as a
whole always returns (spec §4.6, §6, §7). -/
def analyzeMultiscale (cfg : PipelineConfig) (t : Thresholds) (horizons : List Horizon)
    (base : List PricePoint) : MultiscaleResult :=
  let tried := horizons.map (fun h => (h, analyzeHorizon cfg t base h))
  let oks := tried.filterMap (fun hr => match hr.2 with | .ok r => some r | .error _ => none)
  let errs := tried.filterMap
    (fun hr => match hr.2 with | .ok _ => none | .error e => some (hr.1, e))
  { scales := oks, failures := errs, fractal := fractalOf oks }

/-- Modelled from the spec: the alert-relevant condition distilled from a
snapshot — newest singularity, tension band, entropy spike, attractor
proximity (spec §4.8). -/
structure AlertCondition where
  latestSingularity : Option ℕ
  tensionHigh : Bool
  entropySpike : Bool
  nearAttractor : Bool
deriving DecidableEq, Repr

/-- Modelled from the spec: the kinds of state transition that fire an alert
(spec §4.8). -/
inductive AlertKind where
  | NewSingularity
  | TensionShift
  | EntropyShift
  | AttractorApproach
deriving DecidableEq, Repr

/-- Modelled from the spec: `AlertEvent {kind, symbol, horizon, emitted_at}`
(spec §3). -/
structure AlertEvent where
  kind : AlertKind
  symbol : String
  horizon : Horizon
  emitted_at : ℕ
deriving DecidableEq, Repr

/-- Distill the alert-relevant condition of a snapshot (spec §4.8). -/
def conditionOf (cfg : PipelineConfig) (t : Thresholds) (snap : MetricsSnapshot) :
    AlertCondition :=
  let s := snapshotSummary cfg snap
  { latestSingularity := snap.singularities.getLast?
  , tensionHigh := t.tensionHigh < |s.tension|
  , entropySpike := t.entropyHigh < s.entropy
  , nearAttractor := (s.nearestAttractorDistPct.map
      (fun d => decide (d ≤ t.attractorNearPct))).getD false }

/-- Modelled from the spec: the state transitions between the stored and the
recomputed condition — a newly appeared singularity, tension crossing
into/out of the high band, entropy crossing the spike threshold, or price
newly moving within range of an attractor (spec §4.8). -/
def detectTransitions (old new : AlertCondition) : List AlertKind :=
  (if new.latestSingularity ≠ old.latestSingularity ∧ new.latestSingularity.isSome
    then [AlertKind.NewSingularity] else []) ++
  (if new.tensionHigh ≠ old.tensionHigh then [AlertKind.TensionShift] else []) ++
  (if new.entropySpike ≠ old.entropySpike then [AlertKind.EntropyShift] else []) ++
  (if new.nearAttractor ∧ ¬ old.nearAttractor then [AlertKind.AttractorApproach] else [])

/-- A monitored `(symbol, horizon)` key (spec §4.8). -/
abbrev MonitorKey := String × Horizon

/-- Modelled from the spec: the StreamingMonitor's keyed store of the last
known alert condition per `(symbol, horizon)` — the only state of the
system (spec §3 lifecycle, §4.8, §9). -/
structure MonitorState where
  lastCond : List (MonitorKey × AlertCondition)
deriving DecidableEq, Repr

/-- Look up the stored condition of a key. -/
def lookupCond (st : MonitorState) (key : MonitorKey) : Option AlertCondition :=
  (st.lastCond.find? (fun kv => kv.1 == key)).map Prod.snd

/-- Replace the stored condition of a key (write-after-success commit,
spec §5). -/
def storeCond (st : MonitorState) (key : MonitorKey) (c : AlertCondition) : MonitorState :=
  ⟨(key, c) :: st.lastCond.filter (fun kv => kv.1 != key)⟩

/-- Modelled from the spec: one poll of the StreamingMonitor for one key —
recompute the snapshot from the fetched window, emit an `AlertEvent` per
state transition against the stored condition, and commit the new condition
only after a fully successful compute cycle; the first poll of a key only
establishes its baseline, and a failed compute commits nothing
(spec §4.8, §5, §7). -/
def poll (cfg : PipelineConfig) (t : Thresholds) (st : MonitorState) (key : MonitorKey)
    (fetched : List PricePoint) (now : ℕ) : MonitorState × List AlertEvent :=
  match analyze cfg fetched with
  | .error _ => (st, [])
  | .ok snap =>
      let cond := conditionOf cfg t snap
      match lookupCond st key with
      | none => (storeCond st key cond, [])
      | some old =>
          (storeCond st key cond,
           (detectTransitions old cond).map (fun k => ⟨k, key.1, key.2, now⟩))

/-- Embedded from `src/mobile/src/services/api.ts`: a `CacheEntry` with its
payload, write time and expiry time. -/
structure CacheEntry (α : Type) where
  data : α
  timestamp : ℕ
  expiresAt : ℕ
deriving DecidableEq, Repr

/-- The in-memory cache of the mobile API client
(`memoryCache : Map<string, CacheEntry>` in api.ts), embedded as an
association list. -/
abbrev MemoryCache (α : Type) := List (String × CacheEntry α)

/-- `memoryCache.get(key)`. -/
def cacheLookup (cache : MemoryCache α) (key : String) : Option (CacheEntry α) :=
  (cache.find? (fun kv => kv.1 == key)).map Prod.snd

/-- `memoryCache.delete(key)` (a no-op when the key is absent). -/
def cacheDelete (cache : MemoryCache α) (key : String) : MemoryCache α :=
  cache.filter (fun kv => kv.1 != key)

/-- Embedded from api.ts `getFromCache` (lines 108–115): return the entry's
data when it exists and `Date.now()` is strictly before `expiresAt`;
otherwise delete the key and return null.  The JS mutates `memoryCache`;
the embedding returns the read result together with the cache state after
the call. -/
def getFromCache (cache : MemoryCache α) (key : String) (now : ℕ) :
    Option α × MemoryCache α :=
  match cacheLookup cache key with
  | some entry =>
      if now < entry.expiresAt then (some entry.data, cache)
      else (none, cacheDelete cache key)
  | none => (none, cacheDelete cache key)

/-- Embedded from api.ts `setCache` (lines 120–127): store the data with
`timestamp = now` and `expiresAt = now + (expiry || this.cacheExpiry)` —
the JS `||` falls back to the configured expiry when the argument is
absent or zero. -/
def setCache (cacheExpiry : ℕ) (cache : MemoryCache α) (key : String) (d : α)
    (now : ℕ) (expiry : Option ℕ) : MemoryCache α :=
  let eff := match expiry with
    | some e => if e = 0 then cacheExpiry else e
    | none => cacheExpiry
  (key, ⟨d, now, now + eff⟩) :: cacheDelete cache key

/-- Concrete threshold configuration used by the closed instances below. -/
def sampleThresholds : Thresholds := ⟨1, 1, 2, 0, 3, 1, 2⟩

/-- Concrete snapshot summary on which every Interpreter rule but the
fallback fails. -/
def sampleQuiet : InterpSnapshot := ⟨0, 0, 5, 0, none⟩

/-- Concrete three-point price series used by the closed instances below. -/
def samplePts : List PricePoint := [⟨0, 10, none⟩, ⟨1, 11, none⟩, ⟨2, 12, none⟩]

/-- Concrete pipeline configuration used by the closed instances below. -/
def sampleCfg : PipelineConfig := ⟨4, 3, 1/2, 5/2, 3/4, 2, 3, 1, 5⟩

/-- An empty snapshot, used only as the default of otherwise total reads. -/
def emptySnap : MetricsSnapshot := ⟨[], [], [], [], [], [], [], []⟩

/-- Concrete monitored key used by the closed instances below. -/
def sampleKey : MonitorKey := ("BTCUSDT", Horizon.medium)

/- ------------------------------------------------------------------ -/
/- Theorems                                                           -/
/- ------------------------------------------------------------------ -/

/-- No transition is detected between two identical alert conditions. -/
theorem detectTransitions_self (c : AlertCondition) : detectTransitions c c = [] := by
  simp [detectTransitions]

/-- Storing a condition for a key makes it the stored condition of that key. -/
theorem lookupCond_store (st : MonitorState) (key : MonitorKey) (c : AlertCondition) :
    lookupCond (storeCond st key c) key = some c := by
  simp [lookupCond, storeCond, List.find?]

/-- **C2.** The Interpreter is deterministic and stateless: two invocations
with identical snapshot and identical threshold configuration return the
identical phase, confidence and warning — `interpret` reads no state other
than its two arguments. -/
theorem interpret_deterministic (t₁ t₂ : Thresholds) (s₁ s₂ : InterpSnapshot)
    (hs : s₁ = s₂) (ht : t₁ = t₂) :
    (interpret t₁ s₁).phase = (interpret t₂ s₂).phase ∧
    (interpret t₁ s₁).confidence = (interpret t₂ s₂).confidence ∧
    (interpret t₁ s₁).warning = (interpret t₂ s₂).warning := by
  subst hs; subst ht; exact ⟨rfl, rfl, rfl⟩

/-- Closed instance of `interpret_deterministic` at a concrete snapshot and
threshold configuration. -/
theorem interpret_deterministic_witness :
    (interpret sampleThresholds sampleQuiet).phase =
      (interpret sampleThresholds sampleQuiet).phase ∧
    (interpret sampleThresholds sampleQuiet).confidence =
      (interpret sampleThresholds sampleQuiet).confidence ∧
    (interpret sampleThresholds sampleQuiet).warning =
      (interpret sampleThresholds sampleQuiet).warning :=
  interpret_deterministic sampleThresholds sampleThresholds sampleQuiet sampleQuiet rfl rfl

/-- Deleting a key removes it from the cache. -/
theorem cacheLookup_delete (cache : MemoryCache α) (key : String) :
    cacheLookup (cacheDelete cache key) key = none := by
  simp only [cacheLookup, cacheDelete, Option.map_eq_none', List.find?_eq_none,
    List.mem_filter]
  intro kv hkv
  simpa using hkv.2

/-- **C10.** The mobile API client's cache never serves a stale entry: a read
returns cached data only when the current time is strictly before the
entry's `expiresAt`; a stale or missing entry yields `none` and the stale
entry is deleted; and `setCache` stamps `expiresAt` as the write time plus
the configured expiry, after which reads yield `none`. -/
theorem cache_never_stale {α : Type} (cache : MemoryCache α) (key : String) (now : ℕ) :
    (∀ d : α, (getFromCache cache key now).1 = some d →
       ∃ e, cacheLookup cache key = some e ∧ e.data = d ∧ now < e.expiresAt) ∧
    (∀ e, cacheLookup cache key = some e → e.expiresAt ≤ now →
       (getFromCache cache key now).1 = none ∧
       cacheLookup (getFromCache cache key now).2 key = none) ∧
    (cacheLookup cache key = none → (getFromCache cache key now).1 = none) ∧
    (∀ (cacheExpiry : ℕ) (d : α) (expiry : Option ℕ),
       ∃ e, cacheLookup (setCache cacheExpiry cache key d now expiry) key = some e ∧
         e.data = d ∧ e.timestamp = now ∧
         e.expiresAt = now + (match expiry with
            | some x => if x = 0 then cacheExpiry else x
            | none => cacheExpiry) ∧
         ∀ later, e.expiresAt ≤ later →
           (getFromCache (setCache cacheExpiry cache key d now expiry) key later).1 = none) := by
  refine ⟨?_, ?_, ?_, ?_⟩
  · intro d hd
    cases hc : cacheLookup cache key with
    | none => simp [getFromCache, hc] at hd
    | some e =>
        by_cases hlt : now < e.expiresAt
        · simp [getFromCache, hc, hlt] at hd
          exact ⟨e, rfl, hd, hlt⟩
        · simp [getFromCache, hc, hlt] at hd
  · intro e he hstale
    have hnlt : ¬ now < e.expiresAt := by omega
    refine ⟨by simp [getFromCache, he, hnlt], ?_⟩
    simp only [getFromCache, he, if_neg hnlt]
    exact cacheLookup_delete cache key
  · intro hnone
    simp [getFromCache, hnone]
  · intro cacheExpiry d expiry
    have heff : ∃ eff : ℕ,
        eff = (match expiry with
          | some x => if x = 0 then cacheExpiry else x
          | none => cacheExpiry) := ⟨_, rfl⟩
    obtain ⟨eff, heff⟩ := heff
    have hlook : cacheLookup (setCache cacheExpiry cache key d now expiry) key
        = some ⟨d, now, now + eff⟩ := by
      simp [setCache, cacheLookup, List.find?, heff]
    refine ⟨⟨d, now, now + eff⟩, hlook, rfl, rfl, by rw [heff], ?_⟩
    intro later hlater
    have hnlt : ¬ later < (⟨d, now, now + eff⟩ : CacheEntry α).expiresAt := by
      simp only [not_lt]
      exact hlater
    simp [getFromCache, hlook, hnlt]

/-- Closed instance of `cache_never_stale`: a read at time 5 of an entry that
expired at time 3 yields `none` and deletes the entry. -/
theorem cache_never_stale_witness :
    (getFromCache [("k", (⟨7, 0, 3⟩ : CacheEntry ℕ))] "k" 5).1 = none ∧
    cacheLookup (getFromCache [("k", (⟨7, 0, 3⟩ : CacheEntry ℕ))] "k" 5).2 "k" = none :=
  (cache_never_stale [("k", (⟨7, 0, 3⟩ : CacheEntry ℕ))] "k" 5).2.1
    ⟨7, 0, 3⟩ (by rfl) (by decide)

/-- **C3.** The StreamingMonitor emits zero `AlertEvent`s on a poll whose
recomputed alert-relevant condition equals the stored condition of the key;
in particular, polling the same key twice with unchanged upstream data
emits no event on the second poll. -/
theorem monitor_no_alert_when_unchanged (cfg : PipelineConfig) (t : Thresholds)
    (st : MonitorState) (key : MonitorKey) (fetched : List PricePoint) (now₁ now₂ : ℕ) :
    (∀ snap old, analyze cfg fetched = .ok snap →
       lookupCond st key = some old → old = conditionOf cfg t snap →
       (poll cfg t st key fetched now₁).2 = []) ∧
    (poll cfg t (poll cfg t st key fetched now₁).1 key fetched now₂).2 = [] := by
  constructor
  · intro snap old ha hl hold
    subst hold
    simp [poll, ha, hl, detectTransitions_self]
  · cases ha : analyze cfg fetched with
    | error e => simp [poll, ha]
    | ok snap =>
        cases hl : lookupCond st key with
        | none =>
            simp [poll, ha, hl, lookupCond_store, detectTransitions_self]
        | some old =>
            simp [poll, ha, hl, lookupCond_store, detectTransitions_self]

/-- Closed instance of `monitor_no_alert_when_unchanged`: two polls of the
same key over the same three-point window emit nothing on the second
poll. -/
theorem monitor_no_alert_when_unchanged_witness :
    (poll sampleCfg sampleThresholds
      (poll sampleCfg sampleThresholds ⟨[]⟩ sampleKey samplePts 0).1
      sampleKey samplePts 1).2 = [] :=
  (monitor_no_alert_when_unchanged sampleCfg sampleThresholds ⟨[]⟩ sampleKey
    samplePts 0 1).2

/-- First-match evaluation of any rule list: either some rule matches — and
the result is the first matching rule's phase, all earlier predicates being
false — or no rule matches and the evaluation falls back to
`Transitional`. -/
theorem firstMatch_spec (t : Thresholds) (s : InterpSnapshot) :
    ∀ rules : List Rule,
      (∃ i : Fin rules.length,
         (rules.get i).1 t s = true ∧
         firstMatch t s rules = (rules.get i).2 ∧
         ∀ j : Fin rules.length, j.val < i.val → (rules.get j).1 t s = false) ∨
      ((∀ r ∈ rules, r.1 t s = false) ∧ firstMatch t s rules = Phase.Transitional)
  | [] => Or.inr ⟨by simp, rfl⟩
  | r :: rs => by
      by_cases h : r.1 t s = true
      · refine Or.inl ⟨⟨0, by simp⟩, h, by simp [firstMatch, h], ?_⟩
        intro j hj
        exact absurd (by simpa using hj) (Nat.not_lt_zero j.val)
      · have h' : r.1 t s = false := by
          cases hb : r.1 t s
          · rfl
          · exact absurd hb h
        have hfm : firstMatch t s (r :: rs) = firstMatch t s rs := by
          simp [firstMatch, h']
        rcases firstMatch_spec t s rs with ⟨i, hp, he, hb⟩ | ⟨hall, he⟩
        · refine Or.inl ⟨⟨i.val + 1, by simpa using i.isLt⟩, hp, by rw [hfm]; exact he, ?_⟩
          intro j hj
          match j with
          | ⟨0, _⟩ => exact h'
          | ⟨jv + 1, hjv⟩ =>
              exact hb ⟨jv, by simpa using hjv⟩ (by simpa using hj)
        · refine Or.inr ⟨?_, by rw [hfm]; exact he⟩
          intro x hx
          rcases List.mem_cons.mp hx with hx | hx
          · subst hx; exact h'
          · exact hall x hx

/-- **C1.** The Interpreter's phase is computed by first-match evaluation of
the explicit ordered rule table: the first rule is the `SingularityAlert`
rule (tested first, on the recent-singularity count), the last rule is the
generic always-true `Transitional` fallback, the returned phase is the
result of the first rule whose predicate holds with every earlier predicate
false, and `Transitional` is produced only when no earlier rule matches. -/
theorem interpreter_first_match (t : Thresholds) (s : InterpSnapshot) :
    (interpreterRules.map Prod.snd
      = [ Phase.SingularityAlert, Phase.CompressionBuilding, Phase.Impulse
        , Phase.Correction, Phase.Convergence, Phase.Equilibrium, Phase.Transitional ]) ∧
    (interpreterRules.head?.map (fun r => r.1 t s)
      = some (decide (0 < s.recentSingularities))) ∧
    (∃ i : Fin interpreterRules.length,
       (interpreterRules.get i).1 t s = true ∧
       interpretPhase t s = (interpreterRules.get i).2 ∧
       ∀ j : Fin interpreterRules.length, j.val < i.val →
         (interpreterRules.get j).1 t s = false) ∧
    (interpretPhase t s = Phase.Transitional →
       ∀ j : Fin interpreterRules.length, j.val + 1 < interpreterRules.length →
         (interpreterRules.get j).1 t s = false) := by
  have hlast : ((fun _ _ => true, Phase.Transitional) : Rule) ∈ interpreterRules := by
    simp [interpreterRules]
  have hmain := firstMatch_spec t s interpreterRules
  rcases hmain with ⟨i, hp, he, hb⟩ | ⟨hall, _⟩
  · refine ⟨rfl, rfl, ⟨i, hp, he, hb⟩, ?_⟩
    intro hT j hj
    by_cases hji : j.val < i.val
    · exact hb j hji
    · exfalso
      have hlen : interpreterRules.length = 7 := rfl
      have hi7 : i.val < 7 := by omega
      have hphase : (interpreterRules.get i).2 = Phase.Transitional := by
        rw [← he]; exact hT
      have hi6 : i.val = 6 := by
        rcases i with ⟨iv, hiv⟩
        interval_cases iv
        · exact absurd hphase
            (by decide : (interpreterRules.get ⟨0, by decide⟩).2 ≠ Phase.Transitional)
        · exact absurd hphase
            (by decide : (interpreterRules.get ⟨1, by decide⟩).2 ≠ Phase.Transitional)
        · exact absurd hphase
            (by decide : (interpreterRules.get ⟨2, by decide⟩).2 ≠ Phase.Transitional)
        · exact absurd hphase
            (by decide : (interpreterRules.get ⟨3, by decide⟩).2 ≠ Phase.Transitional)
        · exact absurd hphase
            (by decide : (interpreterRules.get ⟨4, by decide⟩).2 ≠ Phase.Transitional)
        · exact absurd hphase
            (by decide : (interpreterRules.get ⟨5, by decide⟩).2 ≠ Phase.Transitional)
        · rfl
      omega
  · exact absurd (hall _ hlast) (by simp)

/-- Closed instance of `interpreter_first_match`: on a quiet snapshot the
phase is `Transitional`, so the first (SingularityAlert) rule's predicate
evaluates to false there. -/
theorem interpreter_first_match_witness :
    (interpreterRules.get ⟨0, by decide⟩).1 sampleThresholds sampleQuiet = false :=
  (interpreter_first_match sampleThresholds sampleQuiet).2.2.2 (by rfl)
    ⟨0, by decide⟩ (by decide)

/-- The returns of a constant series are all zero. -/
theorem returnsOf_const (c : ℚ) :
    ∀ ps : List ℚ, (∀ p ∈ ps, p = c) → ∀ r ∈ returnsOf ps, r = 0
  | [], _, r, hr => by simp [returnsOf] at hr
  | [_], _, r, hr => by simp [returnsOf] at hr
  | a :: b :: rest, h, r, hr => by
      have hcons : returnsOf (a :: b :: rest) = (b - a) :: returnsOf (b :: rest) := rfl
      rw [hcons] at hr
      rcases List.mem_cons.mp hr with hr | hr
      · rw [hr, h a (by simp), h b (by simp)]
        ring
      · exact returnsOf_const c (b :: rest)
          (fun p hp => h p (List.mem_cons_of_mem a hp)) r hr

/-- A min-fold over values all equal to the base stays at the base. -/
theorem foldl_min_const (c : ℚ) :
    ∀ l : List ℚ, (∀ x ∈ l, x = c) → l.foldl min c = c
  | [], _ => rfl
  | x :: xs, h => by
      rw [List.foldl_cons, h x (by simp), min_self]
      exact foldl_min_const c xs (fun y hy => h y (by simp [hy]))

/-- A max-fold over values all equal to the base stays at the base. -/
theorem foldl_max_const (c : ℚ) :
    ∀ l : List ℚ, (∀ x ∈ l, x = c) → l.foldl max c = c
  | [], _ => rfl
  | x :: xs, h => by
      rw [List.foldl_cons, h x (by simp), max_self]
      exact foldl_max_const c xs (fun y hy => h y (by simp [hy]))

/-- The minimum of a nonempty constant list is its value. -/
theorem listMin_const (c : ℚ) (l : List ℚ) (hne : l ≠ []) (h : ∀ x ∈ l, x = c) :
    listMin l = c := by
  match l with
  | [] => exact absurd rfl hne
  | x :: xs =>
      show xs.foldl min x = c
      rw [h x (by simp)]
      exact foldl_min_const c xs (fun y hy => h y (by simp [hy]))

/-- The maximum of a nonempty constant list is its value. -/
theorem listMax_const (c : ℚ) (l : List ℚ) (hne : l ≠ []) (h : ∀ x ∈ l, x = c) :
    listMax l = c := by
  match l with
  | [] => exact absurd rfl hne
  | x :: xs =>
      show xs.foldl max x = c
      rw [h x (by simp)]
      exact foldl_max_const c xs (fun y hy => h y (by simp [hy]))

/-- Over a degenerate bin span every bin count is either the full sample
count (bin 0) or zero (every other bin). -/
theorem binCounts_degenerate (k : ℕ) (rs : List ℚ) (hmin : listMin rs = 0)
    (hmax : listMax rs = 0) :
    ∀ cnt ∈ binCounts k rs, cnt = rs.length ∨ cnt = 0 := by
  intro cnt hcnt
  rcases List.mem_map.mp hcnt with ⟨b, _, hb⟩
  rw [hmin, hmax] at hb
  have hbin : ∀ r : ℚ, binIndex 0 0 k r = 0 := fun r => by
    unfold binIndex
    rw [if_pos le_rfl]
  by_cases hb0 : b = 0
  · left
    rw [← hb]
    apply List.countP_eq_length.mpr
    intro r _
    simp [hbin r, hb0]
  · right
    rw [← hb]
    apply List.countP_eq_zero.mpr
    intro r _
    simp [hbin r]
    omega

/-- **C7.** The EntropyEstimator returns a scalar entropy of exactly 0 on any
constant-price window: every return is zero, the whole mass sits in one
bin, and `-(1·log 1) = 0`. -/
theorem entropy_const_zero (k : ℕ) (ps : List ℚ) (c : ℚ) (h : ∀ p ∈ ps, p = c) :
    scalarEntropyIs k ps 0 := by
  unfold scalarEntropyIs entropyIs
  by_cases hlen : (returnsOf ps).length = 0
  · rw [if_pos hlen]
  · rw [if_neg hlen]
    unfold shannonOfCountsIs
    have hrs0 : ∀ r ∈ returnsOf ps, r = (0 : ℚ) := returnsOf_const c ps h
    have hne : returnsOf ps ≠ [] := fun hnil => hlen (by rw [hnil]; rfl)
    have hcnt := binCounts_degenerate k (returnsOf ps)
      (listMin_const 0 _ hne hrs0) (listMax_const 0 _ hne hrs0)
    have hsum : ((binCounts k (returnsOf ps)).map (fun cnt : ℕ =>
        if cnt = 0 then (0 : ℝ)
        else ((cnt : ℝ) / ((returnsOf ps).length : ℝ)) *
          Real.log ((cnt : ℝ) / ((returnsOf ps).length : ℝ)))).sum = 0 := by
      apply List.sum_eq_zero
      intro x hx
      rcases List.mem_map.mp hx with ⟨cnt, hmem, hx⟩
      rcases hcnt cnt hmem with hc | hc
      · rw [← hx, hc, if_neg hlen]
        rw [div_self (by exact_mod_cast hlen)]
        rw [Real.log_one, mul_zero]
      · rw [← hx, hc, if_pos rfl]
    rw [hsum, neg_zero]

/-- Closed instance of `entropy_const_zero` on the constant window
`[5, 5, 5, 5]` with 10 bins. -/
theorem entropy_const_zero_witness : scalarEntropyIs 10 [5, 5, 5, 5] 0 :=
  entropy_const_zero 10 [5, 5, 5, 5] 5 (by decide)

/-- A list whose predicate fails somewhere does not satisfy `all`. -/
theorem all_eq_false_of_exists {α : Type} (p : α → Bool) (l : List α) (x : α)
    (hx : x ∈ l) (hpx : p x = false) : l.all p = false := by
  cases hall : l.all p
  · rfl
  · exact absurd (List.all_eq_true.mp hall x hx) (by rw [hpx]; exact Bool.false_ne_true)

/-- **C6.** The Normalizer rejects every raw series containing non-monotonic
timestamps or a NaN or negative price with an explicit `MalformedInput`
error, and never silently coerces: on success the emitted series carries
exactly the input's timestamps and numeric prices. -/
theorem normalize_rejects_malformed (input : List RawPricePoint) :
    ((chronological input = false ∨
      (∃ p ∈ input, p.price = RawPrice.nan) ∨
      (∃ p ∈ input, ∃ q : ℚ, p.price = RawPrice.val q ∧ q < 0)) →
      normalize input = .error .MalformedInput) ∧
    (∀ out, normalize input = .ok out →
      out.map (fun x => RawPrice.val x.price) = input.map (fun x => x.price) ∧
      out.map (fun x => x.timestamp) = input.map (fun x => x.timestamp)) := by
  constructor
  · intro hbad
    have hcond : (chronological input && input.all (fun p => validPrice p.price)) = false := by
      rcases hbad with hchr | ⟨p, hp, hnan⟩ | ⟨p, hp, q, hval, hneg⟩
      · rw [hchr, Bool.false_and]
      · have : input.all (fun p => validPrice p.price) = false :=
          all_eq_false_of_exists _ input p hp (by rw [hnan]; rfl)
        rw [this, Bool.and_false]
      · have : input.all (fun p => validPrice p.price) = false :=
          all_eq_false_of_exists _ input p hp
            (by rw [hval]; simpa [validPrice] using hneg)
        rw [this, Bool.and_false]
    unfold normalize
    rw [hcond]
    rfl
  · intro out hok
    unfold normalize at hok
    by_cases hcond : (chronological input && input.all (fun p => validPrice p.price)) = true
    · rw [if_pos hcond] at hok
      have hout : out = input.map toPricePoint := by
        injection hok with h
        exact h.symm
      have hall : ∀ p ∈ input, validPrice p.price = true :=
        List.all_eq_true.mp (Bool.and_elim_right hcond)
      subst hout
      constructor
      · rw [List.map_map]
        apply List.map_congr_left
        intro p hp
        have := hall p hp
        cases hpr : p.price with
        | nan => rw [hpr] at this; exact absurd this (by simp [validPrice])
        | val q => simp [Function.comp, toPricePoint, hpr]
      · rw [List.map_map]
        apply List.map_congr_left
        intro p _
        rfl
    · rw [if_neg hcond] at hok
      exact absurd hok (by simp)

/-- Closed instance of `normalize_rejects_malformed`: a single negative price
is rejected with `MalformedInput`. -/
theorem normalize_rejects_malformed_witness :
    normalize [⟨0, RawPrice.val (-1), none⟩] = .error .MalformedInput :=
  (normalize_rejects_malformed [⟨0, RawPrice.val (-1), none⟩]).1
    (Or.inr (Or.inr ⟨⟨0, RawPrice.val (-1), none⟩, by decide, -1, rfl, by norm_num⟩))

/-- Every observation weight is non-negative. -/
theorem weightedPoints_nonneg (pts : List PricePoint) :
    ∀ pw ∈ weightedPoints pts, 0 ≤ pw.2 := by
  intro pw hpw
  rcases List.mem_map.mp hpw with ⟨ip, _, hip⟩
  rw [← hip]
  have h1 : (0 : ℚ) ≤ ((ip.1 + 1 : ℕ) : ℚ) := by positivity
  have h2 : (0 : ℚ) ≤ max (ip.2.volume.getD 1) 0 := le_max_right _ _
  exact mul_nonneg h1 h2

/-- The sum of the second components of a filtered list is bounded by the
unfiltered sum when all second components are non-negative. -/
theorem filter_snd_sum_le {α : Type} (p : α × ℚ → Bool) :
    ∀ l : List (α × ℚ), (∀ x ∈ l, 0 ≤ x.2) →
      ((l.filter p).map Prod.snd).sum ≤ (l.map Prod.snd).sum
  | [], _ => le_rfl
  | x :: xs, h => by
      have hx : 0 ≤ x.2 := h x (by simp)
      have ih := filter_snd_sum_le p xs (fun y hy => h y (by simp [hy]))
      by_cases hp : p x
      · rw [List.filter_cons_of_pos hp]
        simpa using ih
      · rw [List.filter_cons_of_neg hp]
        simp only [List.map_cons, List.sum_cons]
        calc ((xs.filter p).map Prod.snd).sum ≤ (xs.map Prod.snd).sum := ih
          _ ≤ x.2 + (xs.map Prod.snd).sum := by linarith

/-- The sum of non-negative values is non-negative. -/
theorem snd_sum_nonneg {α : Type} :
    ∀ l : List (α × ℚ), (∀ x ∈ l, 0 ≤ x.2) → 0 ≤ (l.map Prod.snd).sum
  | [], _ => le_rfl
  | x :: xs, h => by
      have hx : 0 ≤ x.2 := h x (by simp)
      have ih := snd_sum_nonneg xs (fun y hy => h y (by simp [hy]))
      simp only [List.map_cons, List.sum_cons]
      linarith

/-- Any single cluster's strength is a normalized mass in `[0,1]`. -/
theorem clusterFor_strength_mem (width : ℚ) (pts : List PricePoint) (key : ℤ) :
    0 ≤ (clusterFor width pts key).strength ∧ (clusterFor width pts key).strength ≤ 1 := by
  have hw := weightedPoints_nonneg pts
  have hmass_nonneg : 0 ≤ ((((weightedPoints pts).filter
      (fun pw => bucketKey width pw.1 == key)).map Prod.snd)).sum :=
    snd_sum_nonneg _ (fun x hx => hw x (List.mem_of_mem_filter hx))
  have hmass_le : ((((weightedPoints pts).filter
      (fun pw => bucketKey width pw.1 == key)).map Prod.snd)).sum ≤ totalMass pts :=
    filter_snd_sum_le _ (weightedPoints pts) hw
  have htot : 0 ≤ totalMass pts := snd_sum_nonneg _ hw
  have hstr : (clusterFor width pts key).strength
      = ((((weightedPoints pts).filter
          (fun pw => bucketKey width pw.1 == key)).map Prod.snd)).sum / totalMass pts := rfl
  rw [hstr]
  constructor
  · exact div_nonneg hmass_nonneg htot
  · rcases eq_or_lt_of_le htot with htz | htz
    · rw [← htz, div_zero]
      norm_num
    · exact (div_le_one htz).mpr hmass_le

/-- **C8.** Every attractor returned by the AttractorLocator has strength in
the closed interval `[0,1]`, and the number of returned attractors never
exceeds the configured maximum `K`. -/
theorem attractors_bounded (K : ℕ) (width : ℚ) (pts : List PricePoint) :
    (findAttractors K width pts).length ≤ K ∧
    ∀ a ∈ findAttractors K width pts, 0 ≤ a.strength ∧ a.strength ≤ 1 := by
  constructor
  · unfold findAttractors
    rw [List.length_map, List.length_take]
    exact min_le_left _ _
  · intro a ha
    unfold findAttractors at ha
    rcases List.mem_map.mp ha with ⟨km, _, hkm⟩
    rw [← hkm]
    exact clusterFor_strength_mem width pts km.1

/-- Inserting into a descending list adds one element. -/
theorem insertDesc_length (x : ℤ × ℚ) :
    ∀ l : List (ℤ × ℚ), (insertDesc x l).length = l.length + 1
  | [] => rfl
  | y :: ys => by
      unfold insertDesc
      by_cases h : y.2 ≤ x.2
      · rw [if_pos h]
        rfl
      · rw [if_neg h]
        simp [insertDesc_length x ys]

/-- Sorting preserves length. -/
theorem sortDesc_length : ∀ l : List (ℤ × ℚ), (sortDesc l).length = l.length
  | [] => rfl
  | x :: xs => by
      unfold sortDesc
      rw [insertDesc_length, sortDesc_length xs]
      rfl

/-- Closed instance of `attractors_bounded` on the sample series: at most 3
attractors come back and the first one's strength lies in `[0,1]`. -/
theorem attractors_bounded_witness :
    (findAttractors 3 1 samplePts).length ≤ 3 ∧
    (0 ≤ ((findAttractors 3 1 samplePts).headD ⟨0, 0⟩).strength ∧
     ((findAttractors 3 1 samplePts).headD ⟨0, 0⟩).strength ≤ 1) := by
  have hkeys : clusterKeys 1 samplePts ≠ [] := by
    unfold clusterKeys weightedPoints samplePts
    simp [List.dedup_eq_nil]
  have hne : findAttractors 3 1 samplePts ≠ [] := by
    unfold findAttractors
    intro hnil
    rcases List.map_eq_nil.mp hnil |> List.take_eq_nil_iff.mp with h3 | hsort
    · exact absurd h3 (by norm_num)
    · have := sortDesc_length ((clusterKeys 1 samplePts).map
        (fun key => (key, clusterMass 1 samplePts key)))
      rw [hsort] at this
      simp only [List.length_nil, List.length_map] at this
      exact hkeys (List.eq_nil_of_length_eq_zero this.symm)
  refine ⟨(attractors_bounded 3 1 samplePts).1,
    (attractors_bounded 3 1 samplePts).2 _ ?_⟩
  rcases List.exists_cons_of_ne_nil hne with ⟨a, l', heq⟩
  rw [heq]
  simp

/-- The tension recursion yields one value per return. -/
theorem tensionAux_length (decay : ℚ) :
    ∀ (rs : List ℚ) (prev rprev : ℚ), (tensionAux decay prev rprev rs).length = rs.length
  | [], _, _ => rfl
  | r :: rs, prev, rprev => by
      unfold tensionAux
      simp [tensionAux_length decay rs]

/-- A series of length `n` has `n - 1` returns. -/
theorem returnsOf_length (ps : List ℚ) : (returnsOf ps).length = ps.length - 1 := by
  unfold returnsOf
  rw [List.length_zipWith, List.length_tail]
  omega

/-- The tension array is aligned 1:1 with the input. -/
theorem tensionOf_length (decay : ℚ) (ps : List ℚ) :
    (tensionOf decay ps).length = ps.length := by
  match ps with
  | [] => rfl
  | a :: rest =>
      show (0 :: tensionAux decay 0 0 (returnsOf (a :: rest))).length = (a :: rest).length
      rw [List.length_cons, tensionAux_length, returnsOf_length]
      simp

/-- Reading a mapped range at an in-bounds index yields the function value. -/
theorem getD_map_range {α : Type} (n : ℕ) (f : ℕ → α) (d : α) (i : ℕ) (h : i < n) :
    ((List.range n).map f).getD i d = f i := by
  rw [List.getD_eq_getElem?_getD]
  simp [List.getElem?_map, List.getElem?_range h]

/-- The clamped second difference repeats the nearest interior value at both
boundary indices. -/
theorem curvAt_boundary (ps : List ℚ) (h3 : 3 ≤ ps.length) :
    curvAt ps 0 = curvAt ps 1 ∧
    curvAt ps (ps.length - 1) = curvAt ps (ps.length - 2) := by
  constructor
  · have hj : min (max 0 1) (ps.length - 2) = min (max 1 1) (ps.length - 2) := by
      simp
    simp only [curvAt]
    rw [hj]
  · have hj : min (max (ps.length - 1) 1) (ps.length - 2)
        = min (max (ps.length - 2) 1) (ps.length - 2) := by
      omega
    simp only [curvAt]
    rw [hj]

/-- **C9.** Every per-index array of a `MetricsSnapshot` produced by
`analyze` from an input series of length `n` (curvature, tension, the
trailing local-entropy distributions, ricci_flow) has exactly length `n`,
and the curvature boundary indices repeat the nearest interior value
rather than being left undefined. -/
theorem analyze_aligned (cfg : PipelineConfig) (pts : List PricePoint) (s : MetricsSnapshot)
    (h : analyze cfg pts = .ok s) :
    s.prices.length = pts.length ∧
    s.curvature.length = s.prices.length ∧
    s.tension.length = s.prices.length ∧
    s.local_entropy_bins.length = s.prices.length ∧
    s.ricci_flow.length = s.prices.length ∧
    s.curvature.getD 0 0 = s.curvature.getD 1 0 ∧
    s.curvature.getD (s.prices.length - 1) 0 = s.curvature.getD (s.prices.length - 2) 0 := by
  simp only [analyze] at h
  by_cases hlt : (pts.map (fun p => p.price)).length < 3
  · rw [if_pos hlt] at h
    exact absurd h (by simp)
  · rw [if_neg hlt] at h
    injection h with h
    subst h
    have h3 : 3 ≤ (pts.map (fun p => p.price)).length := by omega
    refine ⟨by simp, ?_, ?_, ?_, ?_, ?_, ?_⟩
    · simp [curvatureOf]
    · exact tensionOf_length _ _
    · simp [localEntropyBins]
    · simp [ricciFlowOf, tensionOf_length]
    · show (curvatureOf (pts.map (fun p => p.price))).getD 0 0
        = (curvatureOf (pts.map (fun p => p.price))).getD 1 0
      unfold curvatureOf
      rw [getD_map_range _ _ _ 0 (by omega), getD_map_range _ _ _ 1 (by omega)]
      exact (curvAt_boundary _ h3).1
    · show (curvatureOf (pts.map (fun p => p.price))).getD
          ((pts.map (fun p => p.price)).length - 1) 0
        = (curvatureOf (pts.map (fun p => p.price))).getD
          ((pts.map (fun p => p.price)).length - 2) 0
      unfold curvatureOf
      rw [getD_map_range _ _ _ _ (by omega), getD_map_range _ _ _ _ (by omega)]
      exact (curvAt_boundary _ h3).2

/-- Closed instance of `analyze_aligned` on the sample three-point series. -/
theorem analyze_aligned_witness :
    ((analyze sampleCfg samplePts).toOption.getD emptySnap).prices.length
      = samplePts.length ∧
    ((analyze sampleCfg samplePts).toOption.getD emptySnap).curvature.length
      = ((analyze sampleCfg samplePts).toOption.getD emptySnap).prices.length ∧
    ((analyze sampleCfg samplePts).toOption.getD emptySnap).tension.length
      = ((analyze sampleCfg samplePts).toOption.getD emptySnap).prices.length := by
  have h := analyze_aligned sampleCfg samplePts
    ((analyze sampleCfg samplePts).toOption.getD emptySnap) rfl
  exact ⟨h.1, h.2.1, h.2.2.1⟩

/-- Every phase occurs in the canonical enumeration. -/
theorem mem_allPhases (p : Phase) : p ∈ allPhases := by
  cases p <;> decide

/-- The argmax fold never leaves a phase whose score strictly dominates all
others. -/
theorem foldl_best_fixed (rs : List HorizonResult) (p : Phase)
    (hzero : ∀ q, q ≠ p → phaseScore rs q = 0) :
    ∀ l : List Phase,
      l.foldl (fun best q => if phaseScore rs best < phaseScore rs q then q else best) p = p
  | [] => rfl
  | q :: l' => by
      rw [List.foldl_cons]
      by_cases hq : q = p
      · rw [hq, if_neg (lt_irrefl _)]
        exact foldl_best_fixed rs p hzero l'
      · rw [if_neg (by rw [hzero q hq]; omega)]
        exact foldl_best_fixed rs p hzero l'

/-- The argmax fold reaches the uniquely positive-scored phase as soon as it
is in the candidate list. -/
theorem foldl_best_reaches (rs : List HorizonResult) (p : Phase)
    (hzero : ∀ q, q ≠ p → phaseScore rs q = 0) (hpos : 0 < phaseScore rs p) :
    ∀ (l : List Phase) (b : Phase), b ≠ p → p ∈ l →
      l.foldl (fun best q => if phaseScore rs best < phaseScore rs q then q else best) b = p
  | [], _, _, hmem => absurd hmem (List.not_mem_nil p)
  | q :: l', b, hb, hmem => by
      rw [List.foldl_cons]
      by_cases hq : q = p
      · rw [hq, if_pos (by rw [hzero b hb]; exact hpos)]
        exact foldl_best_fixed rs p hzero l'
      · have hmem' : p ∈ l' := by
          rcases List.mem_cons.mp hmem with hpq | hmem'
          · exact absurd hpq.symm hq
          · exact hmem'
        rw [if_neg (by rw [hzero q hq]; omega)]
        exact foldl_best_reaches rs p hzero hpos l' b hb hmem'

/-- When every scored horizon has the same phase, that phase wins every
vote. -/
theorem phaseVotes_all_same (rs : List HorizonResult) (p : Phase)
    (hall : ∀ r ∈ rs, r.interpretation.phase = p) : phaseVotes rs p = rs.length := by
  unfold phaseVotes
  apply List.countP_eq_length.mpr
  intro r hr
  simp [hall r hr]

/-- When every scored horizon has the same phase, the dominant phase is that
phase. -/
theorem dominantPhase_all_same (rs : List HorizonResult) (p : Phase) (hne : rs ≠ [])
    (hall : ∀ r ∈ rs, r.interpretation.phase = p) : dominantPhase rs = p := by
  have hq0 : ∀ q, q ≠ p → phaseScore rs q = 0 := by
    intro q hq
    have hv0 : phaseVotes rs q = 0 := by
      unfold phaseVotes
      apply List.countP_eq_zero.mpr
      intro r hr
      simp [hall r hr]
      exact Ne.symm hq
    have hw0 : phaseWeight rs q = 0 := by
      unfold phaseWeight
      rw [List.filter_eq_nil.mpr (by
        intro r hr
        simp [hall r hr]
        exact Ne.symm hq)]
      rfl
    unfold phaseScore
    rw [hv0, hw0]
    simp
  have hpos : 0 < phaseScore rs p := by
    unfold phaseScore
    rw [phaseVotes_all_same rs p hall]
    have hlen : 0 < rs.length := List.length_pos.mpr hne
    calc 0 < rs.length := hlen
      _ ≤ rs.length * (totalWeight rs + 1) := Nat.le_mul_of_pos_right _ (Nat.succ_pos _)
      _ ≤ rs.length * (totalWeight rs + 1) + phaseWeight rs p := Nat.le_add_right _ _
  unfold dominantPhase
  by_cases hp : p = Phase.Impulse
  · subst hp
    exact foldl_best_fixed rs _ hq0 allPhases
  · exact foldl_best_reaches rs p hq0 hpos allPhases Phase.Impulse
      (fun hip => hp hip.symm) (mem_allPhases p)

/-- **C4.** The fractal-consistency score is the percentage agreement of the
dominant phase (majority vote, horizon weight on ties) across the scored
horizons, and equals 100 whenever every scored horizon independently
resolves to the same phase. -/
theorem fractal_consistency_spec (rs : List HorizonResult) (p : Phase) :
    consistencyScore rs = (if rs.length = 0 then 0
      else 100 * ((phaseVotes rs (dominantPhase rs) : ℚ) / (rs.length : ℚ))) ∧
    (rs ≠ [] → (∀ r ∈ rs, r.interpretation.phase = p) →
      dominantPhase rs = p ∧ consistencyScore rs = 100) := by
  refine ⟨rfl, ?_⟩
  intro hne hall
  have hd := dominantPhase_all_same rs p hne hall
  refine ⟨hd, ?_⟩
  unfold consistencyScore
  rw [if_neg (fun h0 => hne (List.eq_nil_of_length_eq_zero h0))]
  rw [hd, phaseVotes_all_same rs p hall]
  rw [div_self (by
    exact_mod_cast fun h0 => hne (List.eq_nil_of_length_eq_zero h0))]
  norm_num

/-- Closed instance of `fractal_consistency_spec`: a single-horizon result
set in phase `Impulse` has dominant phase `Impulse` and consistency 100. -/
theorem fractal_consistency_spec_witness :
    dominantPhase [⟨Horizon.medium, emptySnap, ⟨Phase.Impulse, 50, none⟩⟩] = Phase.Impulse ∧
    consistencyScore [⟨Horizon.medium, emptySnap, ⟨Phase.Impulse, 50, none⟩⟩] = 100 :=
  (fractal_consistency_spec [⟨Horizon.medium, emptySnap, ⟨Phase.Impulse, 50, none⟩⟩]
    Phase.Impulse).2 (List.cons_ne_nil _ _)
    (by
      intro r hr
      rcases List.mem_singleton.mp hr with h
      rw [h])

/-- A successful per-horizon analysis carries its own horizon. -/
theorem analyzeHorizon_ok_horizon (cfg : PipelineConfig) (t : Thresholds)
    (base : List PricePoint) (h : Horizon) (r : HorizonResult)
    (hok : analyzeHorizon cfg t base h = .ok r) : r.horizon = h := by
  unfold analyzeHorizon at hok
  by_cases hshort : (resamplePts (horizonConfig h).granularity base).length
      < (horizonConfig h).minLength
  · rw [if_pos hshort] at hok
    exact absurd hok (by simp)
  · rw [if_neg hshort] at hok
    cases ha : analyze cfg (resamplePts (horizonConfig h).granularity base) with
    | error e =>
        rw [ha] at hok
        exact absurd hok (by simp [Except.map])
    | ok snap =>
        rw [ha] at hok
        simp only [Except.map] at hok
        injection hok with hok
        rw [← hok]

/-- Every horizon's minimum length is at least the curvature minimum. -/
theorem minLength_ge_three (h : Horizon) : 3 ≤ (horizonConfig h).minLength := by
  cases h <;> decide

/-- **C5.** A horizon whose resampled series is shorter than that horizon's
minimum length is omitted from the per-horizon results (its
`InsufficientData` is recorded per-horizon in `failures`), the remaining
horizons' results are still returned, and the fractal analysis is computed
from the returned results alone — the multi-scale request as a whole never
fails. -/
theorem multiscale_omits_short (cfg : PipelineConfig) (t : Thresholds)
    (horizons : List Horizon) (base : List PricePoint) (h : Horizon)
    (hmem : h ∈ horizons) :
    ((resamplePts (horizonConfig h).granularity base).length < (horizonConfig h).minLength →
      (h, PipelineError.InsufficientData) ∈ (analyzeMultiscale cfg t horizons base).failures ∧
      ∀ hr ∈ (analyzeMultiscale cfg t horizons base).scales, hr.horizon ≠ h) ∧
    (¬ (resamplePts (horizonConfig h).granularity base).length < (horizonConfig h).minLength →
      ∃ hr ∈ (analyzeMultiscale cfg t horizons base).scales, hr.horizon = h) ∧
    (analyzeMultiscale cfg t horizons base).fractal
      = fractalOf (analyzeMultiscale cfg t horizons base).scales := by
  refine ⟨?_, ?_, rfl⟩
  · intro hshort
    have herr : analyzeHorizon cfg t base h = .error .InsufficientData := by
      unfold analyzeHorizon
      rw [if_pos hshort]
    constructor
    · show (h, PipelineError.InsufficientData) ∈
        (horizons.map (fun h' => (h', analyzeHorizon cfg t base h'))).filterMap
          (fun hr => match hr.2 with | .ok _ => none | .error e => some (hr.1, e))
      apply List.mem_filterMap.mpr
      refine ⟨(h, analyzeHorizon cfg t base h), List.mem_map_of_mem _ hmem, ?_⟩
      rw [herr]
    · intro hr hhr hhor
      have hhr' : hr ∈ (horizons.map
          (fun h' => (h', analyzeHorizon cfg t base h'))).filterMap
          (fun hr => match hr.2 with | .ok r => some r | .error _ => none) := hhr
      rcases List.mem_filterMap.mp hhr' with ⟨a, hamem, hfa⟩
      rcases List.mem_map.mp hamem with ⟨h', _, ha⟩
      rw [← ha] at hfa
      have hok : analyzeHorizon cfg t base h' = .ok hr := by
        cases hres : analyzeHorizon cfg t base h' with
        | error e => rw [hres] at hfa; exact absurd hfa (by simp)
        | ok r =>
            rw [hres] at hfa
            simp only [Option.some_inj] at hfa
            rw [hfa]
      have := analyzeHorizon_ok_horizon cfg t base h' hr hok
      rw [this] at hhor
      rw [hhor] at hok
      rw [herr] at hok
      exact absurd hok (by simp)
  · intro hlong
    have hlen3 : ¬ ((resamplePts (horizonConfig h).granularity base).map
        (fun p => p.price)).length < 3 := by
      rw [List.length_map]
      have := minLength_ge_three h
      omega
    have hok : ∃ snap, analyze cfg (resamplePts (horizonConfig h).granularity base)
        = .ok snap := by
      cases ha : analyze cfg (resamplePts (horizonConfig h).granularity base) with
      | ok snap => exact ⟨snap, rfl⟩
      | error e =>
          exfalso
          simp only [analyze] at ha
          rw [if_neg hlen3] at ha
          exact absurd ha (by simp)
    rcases hok with ⟨snap, hsnap⟩
    have hah : analyzeHorizon cfg t base h
        = .ok ⟨h, snap, interpret t (snapshotSummary cfg snap)⟩ := by
      unfold analyzeHorizon
      rw [if_neg hlong, hsnap]
      rfl
    refine ⟨⟨h, snap, interpret t (snapshotSummary cfg snap)⟩, ?_, rfl⟩
    show _ ∈ (horizons.map (fun h' => (h', analyzeHorizon cfg t base h'))).filterMap
      (fun hr => match hr.2 with | .ok r => some r | .error _ => none)
    apply List.mem_filterMap.mpr
    refine ⟨(h, analyzeHorizon cfg t base h), List.mem_map_of_mem _ hmem, ?_⟩
    rw [hah]

/-- Closed instance of `multiscale_omits_short`: a three-point base series is
too short for the micro horizon, whose `InsufficientData` lands in the
per-horizon failures of a request that still returns. -/
theorem multiscale_omits_short_witness :
    (Horizon.micro, PipelineError.InsufficientData)
      ∈ (analyzeMultiscale sampleCfg sampleThresholds [Horizon.micro] samplePts).failures :=
  (((multiscale_omits_short sampleCfg sampleThresholds [Horizon.micro] samplePts
    Horizon.micro (by decide)).1) (by decide)).1

end Conductor
